import Mathlib

/-!
Shallow embedding of `LongLookupTables/make_lookup_tables.py`.

A pandas `Series` with a `name`, an index of input strings and string values
is modelled as a `Table`: a name together with an ordered association list of
(index, value) pairs.  Python's globally seeded random generators
(`random`, `np.random`, scikit-learn's `random_state=seed`) are modelled by an
explicit `RNG` record of selection functions; `mkRNG seed` builds a concrete
deterministic instance from the seed, mirroring the fact that every stochastic
step of the script consumes only the seed.  Fallible operations (`reduce` on an
empty sequence, `np.random.choice` with `replace=False` and too large a sample,
`pd.concat` of an empty list, failing `assert_equal`, `train_test_split` on a
degenerate split) are modelled with `Except String`.
-/

namespace LookupTables

/-- A pandas Series: `name` plus ordered (index, value) pairs. -/
structure Table where
  name : String
  entries : List (String × String)
deriving Repr, DecidableEq

/-- Split a character list at every space (the only whitespace the script ever
produces), keeping empty chunks. -/
def pyTokens : List Char → List (List Char)
  | [] => [[]]
  | c :: cs =>
    if c = ' ' then [] :: pyTokens cs
    else
      match pyTokens cs with
      | [] => [[c]]
      | t :: ts => (c :: t) :: ts

/-- Python `s.split()` on space-separated text: split on spaces, drop the
empty chunks produced by leading/trailing/repeated separators. -/
def pySplit (s : String) : List String :=
  ((pyTokens s.data).filter (fun t => t ≠ [])).map (fun t => String.mk t)

/-- `.str.split().str[-1]`: the last whitespace token of a string, if any. -/
def pyLastToken (s : String) : Option String :=
  (pySplit s).getLast?

/-- Python `l[-n:]` for a non-negative count `n` (note `l[-0:] = l[0:] = l`). -/
def pySliceLast (l : List α) (n : Nat) : List α :=
  if n = 0 then l else l.drop (l.length - n)

/-- Python `l[:-n]` for a non-negative count `n` (note `l[:-0] = l[:0] = []`). -/
def pySliceInit (l : List α) (n : Nat) : List α :=
  if n = 0 then [] else l.take (l.length - n)

/-- Reorder `l` by a list of indices (a permutation of `range l.length` when
produced by a well-formed random source). -/
def applyPerm (idxs : List Nat) (l : List α) : List α :=
  idxs.filterMap l.get?

/-- `itertools.product(l, repeat=n)`: all length-`n` selections, first
coordinate varying slowest. -/
def productRepeat (l : List α) : Nat → List (List α)
  | 0 => [[]]
  | n + 1 => l.flatMap (fun x => (productRepeat l n).map (fun xs => x :: xs))

/-- `itertools.product(a, b)`. -/
def listProd (a : List α) (b : List β) : List (α × β) :=
  a.flatMap (fun x => b.map (fun y => (x, y)))

/-- All ways of removing one element from a list: `(picked, rest)` in
position order. -/
def removals : List α → List (α × List α)
  | [] => []
  | x :: xs => (x, xs) :: (removals xs).map (fun p => (p.1, x :: p.2))

/-- `itertools.permutations(l)` (as lists), emitted in the itertools order. -/
def permsLexAux : Nat → List α → List (List α)
  | 0, _ => [[]]
  | n + 1, l => (removals l).flatMap (fun p => (permsLexAux n p.2).map (fun q => p.1 :: q))

/-- All permutations of `l` in itertools order. -/
def permsLex (l : List α) : List (List α) :=
  permsLexAux l.length l

/-- Python `reduce(f, l)` with no initial value: raises on an empty sequence. -/
def reduceE (f : α → α → α) : List α → Except String α
  | [] => .error "reduce() of empty sequence with no initial value"
  | x :: xs => .ok (xs.foldl f x)

/-- `flatten` from the script: `reduce(operator.add, l)` on a list of lists. -/
def flatten (l : List (List α)) : Except String (List α) :=
  reduceE (· ++ ·) l

/-- Effectful map over a list, failing on the first error (a Python list
comprehension whose body may raise). -/
def mapME (f : α → Except String β) : List α → Except String (List β)
  | [] => .ok []
  | a :: as => do
    let b ← f a
    let bs ← mapME f as
    .ok (b :: bs)

/-- `assert_equal` from the script: `assert a == b` with a formatted message. -/
def assert_equal (a b : Int) : Except String Unit :=
  if a = b then .ok () else .error (toString a ++ " != " ++ toString b)

/-- The seeded random sources consumed by the script.  Each field abstracts one
family of calls on the globally seeded generators. -/
structure RNG where
  /-- `np.random.choice(range(P), size=N, replace=False)` in
  `create_N_table_lookup`: `selectSel P N` are the chosen indices. -/
  selectSel : Nat → Nat → List Nat
  /-- `random.shuffle` of a list of length `n`: the visit order as indices. -/
  shuffleIdx : Nat → List Nat
  /-- The `call`-th `np.random.choice(table.index, k, replace=False)`:
  selected index labels. -/
  choiceSel : Nat → List String → Nat → List String
  /-- `random.sample(longer, max_longer)` at loop iteration `j`:
  `sampleSel j n k` are the chosen indices. -/
  sampleSel : Nat → Nat → Nat → List Nat
  /-- `df.sample(frac=1, random_state=seed)` on a frame of `n` rows (the same
  seed is passed at every call, so this depends only on `n`). -/
  dfShuffle : Nat → List Nat
  /-- Whether the stratified `train_test_split` raises a stratification
  `ValueError` on `n` rows (caught and retried without stratification). -/
  stratFails : Nat → Bool
  /-- Row order produced by the stratified `train_test_split`. -/
  ttsStratSel : Nat → List Nat
  /-- Row order produced by the plain `train_test_split`. -/
  ttsPlainSel : Nat → List Nat

/-- Well-formedness of a random source: shuffles are permutations and
`replace=False` choices are distinct in-range selections of the requested
size. -/
def RNG.WF (rng : RNG) : Prop :=
  (∀ n, (rng.shuffleIdx n).Perm (List.range n)) ∧
  (∀ P N, N ≤ P →
    (rng.selectSel P N).length = N ∧ (rng.selectSel P N).Nodup ∧
    ∀ i ∈ rng.selectSel P N, i < P) ∧
  (∀ c labels k, labels.Nodup → k ≤ labels.length →
    (rng.choiceSel c labels k).length = k ∧ (rng.choiceSel c labels k).Nodup ∧
    ∀ x ∈ rng.choiceSel c labels k, x ∈ labels) ∧
  (∀ n, (rng.dfShuffle n).Perm (List.range n))

/-- A concrete deterministic random source derived from the seed: every
selection is a rotation of the natural order by the seed. -/
def mkRNG (seed : Nat) : RNG where
  selectSel := fun P N => ((List.range P).rotate (seed % (P + 1))).take N
  shuffleIdx := fun n => (List.range n).rotate (seed % (n + 1))
  choiceSel := fun c labels k => (labels.rotate ((seed + c) % (labels.length + 1))).take k
  sampleSel := fun j n k => ((List.range n).rotate ((seed + j) % (n + 1))).take k
  dfShuffle := fun n => (List.range n).rotate (seed % (n + 1))
  stratFails := fun _ => false
  ttsStratSel := fun n => (List.range n).rotate (seed % (n + 1))
  ttsPlainSel := fun n => (List.range n).rotate (seed % (n + 1))

/-- `''.join(letters)`. -/
def joinStr (l : List String) : String :=
  l.foldl (fun a b => a ++ b) ""

/-- The input domain: all strings of `n_repeats` letters over `alphabet`, in
`itertools.product` order. -/
def domainInputs (alphabet : List String) (n_repeats : Nat) : List String :=
  (productRepeat alphabet n_repeats).map joinStr

/-- `create_N_table_lookup`: enumerate the domain, enumerate all of its
permutations, select `N` of them without replacement, and name the resulting
unary tables `t1`, `t2`, ... -/
def create_N_table_lookup (N : Nat) (alphabet : List String) (n_repeats : Nat)
    (rng : RNG) : Except String (List Table) :=
  let inputs := domainInputs alphabet n_repeats
  let perms := permsLex inputs
  if N ≤ perms.length then
    .ok ((rng.selectSel perms.length N).enum.map
      (fun p => { name := "t" ++ toString (p.1 + 1),
                  entries := inputs.zip (perms.getD p.2 []) }))
  else .error "Cannot take a larger sample than population when replace is False"

/-- Column naming of the merged frame in `compose_table_lookups`: pandas
suffixes clashing column names with `_x`/`_y`, and the script then truncates
each column name at the first `_` before joining with a space. -/
def composedName (ln rn : String) : String :=
  let lc := if ln == rn then ln ++ "_x" else ln
  let rc := if ln == rn then rn ++ "_y" else rn
  cutUnderscore lc ++ " " ++ cutUnderscore rc
where
  /-- Python `s.split("_")[0]`: the prefix before the first underscore. -/
  cutUnderscore (s : String) : String := String.mk (s.data.takeWhile (fun c => c ≠ '_'))

/-- `compose_table_lookups(table1, table2, is_intermediate)`: for each row of
`table2` (the inner function), look up the last token of its output in
`table1`'s index; the merged row keeps `table2`'s index, and the output is
either `table1`'s value alone or `table2`'s output followed by it. -/
def compose_table_lookups (table1 table2 : Table)
    (is_intermediate : Bool := true) : Table :=
  let entries := table2.entries.flatMap (fun r =>
    match pyLastToken r.2 with
    | none => []
    | some nxt =>
      (table1.entries.filter (fun l => l.1 == nxt)).map (fun l =>
        (r.1, if is_intermediate then r.2 ++ " " ++ l.2 else l.2)))
  { name := composedName table1.name table2.name, entries := entries }

/-- `format_input(table, is_reverse, eos)`: rewrite each index entry to
`"name input"`, optionally reverse its tokens, optionally append the EOS
token; values are untouched. -/
def format_input (table : Table) (is_reverse : Bool := true)
    (eos : Option String := none) : Table :=
  let step1 := table.entries.map (fun e => (table.name ++ " " ++ e.1, e.2))
  let step2 :=
    if is_reverse then
      step1.map (fun e => (String.intercalate " " (pySplit e.1).reverse, e.2))
    else step1
  let step3 :=
    match eos with
    | some t => if t ≠ "" then step3Append step2 t else step2
    | none => step2
  { name := table.name, entries := step3 }
where
  step3Append (l : List (String × String)) (t : String) : List (String × String) :=
    l.map (fun e => (e.1 ++ " " ++ t, e.2))

/-- `set(composed_table.name.split()).intersection(tables)` used as a truth
value: does the composed name mention any of the given table names? -/
def table_is_composed_of (composed_table : Table) (tables : List String) : Bool :=
  (pySplit composed_table.name).any (fun tok => tables.contains tok)

/-- `_split_seen_unseen_new`: three filter passes over the same list,
returning `(seen, unseen, new)`. -/
def split_seen_unseen_new (dfs : List Table) (name_train name_test : List String) :
    List Table × List Table × List Table :=
  (dfs.filter (fun t => ! table_is_composed_of t name_test),
   dfs.filter (fun t => table_is_composed_of t name_test &&
                        table_is_composed_of t name_train),
   dfs.filter (fun t => ! table_is_composed_of t name_train))

/-- `np.random.choice(labels, k, replace=False)`: fails when asked for more
elements than are available. -/
def npChoice (rng : RNG) (call : Nat) (labels : List String) (k : Nat) :
    Except String (List String) :=
  if k ≤ labels.length then .ok (rng.choiceSel call labels k)
  else .error "Cannot take a larger sample than population when replace is False"

/-- `table[held_inputs]`: the rows selected by the held-out labels, in label
order (label lookup on the table's index). -/
def heldoutPick (d : List String) (t : Table) : Table :=
  { name := t.name,
    entries := d.filterMap (fun lbl =>
      (t.entries.find? (fun e => e.1 == lbl)).map (fun e => (lbl, e.2))) }

/-- `table.drop(held_inputs)`: the rows whose label is not held out. -/
def heldoutDrop (d : List String) (t : Table) : Table :=
  { name := t.name,
    entries := t.entries.filter (fun e => ! d.contains e.1) }

/-- Lines 150-157 of the script, applied to the already shuffled seen pool:
slice off the held-out compositions, then per remaining table select held-out
input labels, extract those rows (`table[held_inputs]`) and drop them
(`table.drop(held_inputs)`); pandas raises `KeyError` on a missing label.
Returns `(multiary_train, heldout_inputs, heldout_compositions)`. -/
def heldoutStep (rng : RNG) (pool : List Table)
    (n_heldout_compositions n_heldout_inputs : Nat) :
    Except String (List Table × List Table × List Table) := do
  let heldout_compositions := pySliceLast pool n_heldout_compositions
  let multiary_train := pySliceInit pool n_heldout_compositions
  let drop_inputs ← mapME
    (fun p => npChoice rng p.1 (p.2.entries.map Prod.fst) n_heldout_inputs)
    multiary_train.enum
  let pairs ← mapME
    (fun ht =>
      if ht.1.all (fun lbl => ht.2.entries.any (fun e => e.1 == lbl)) then
        .ok (heldoutPick ht.1 ht.2, heldoutDrop ht.1 ht.2)
      else .error "KeyError")
    (drop_inputs.zip multiary_train)
  .ok (pairs.map Prod.snd, pairs.map Prod.fst, heldout_compositions)

/-- One group of `_merge_format_inputs`: `pd.concat` of the formatted tables
(raises on an empty list), then an optional seeded shuffle of the rows. -/
def mergeOne (rng : RNG) (is_shuffle is_reverse : Bool) (eos : Option String)
    (dfs : List Table) : Except String (List (String × String)) :=
  if dfs.isEmpty then .error "No objects to concatenate"
  else
    let cat := (dfs.map (fun df => format_input df is_reverse eos)).flatMap Table.entries
    .ok (if is_shuffle then applyPerm (rng.dfShuffle cat.length) cat else cat)

/-- `_merge_format_inputs` over a list of groups. -/
def merge_format_inputs (rng : RNG) (is_shuffle is_reverse : Bool)
    (eos : Option String) (list_dfs : List (List Table)) :
    Except String (List (List (String × String))) :=
  mapME (mergeOne rng is_shuffle is_reverse eos) list_dfs

/-- Sums `sum(base**i for i in range(2, max_length + 1))` from `_check_sizes`. -/
def sum_pow (base : Int) (max_length : Nat) : Int :=
  ((List.range' 2 (max_length - 1)).map (fun i => base ^ i)).sum

/-- `_size_permute_compose(n_tables)` from `_check_sizes`. -/
def size_permute_compose (n_tables n_inputs : Int) (max_length : Nat) : Int :=
  ((List.range' 2 (max_length - 1)).map (fun i => n_tables ^ i * n_inputs)).sum

/-- `_check_sizes`: derive the domain size from the (formatted, concatenated)
unary split — string length of its first value and number of distinct
characters over all values — and assert the six closed-form sizes. -/
def check_sizes (unary multiary heldout_inputs heldout_compositions
    heldout_tables new_compositions : List (String × String))
    (max_length n_unary_tables n_heldout_tables n_heldout_compositions
     n_heldout_inputs : Nat) : Except String Unit :=
  match unary.head? with
  | none => .error "single positional indexer is out-of-bounds"
  | some e0 => do
    let n_repeats : Nat := e0.2.length
    let alphaCount : Nat := (joinStr (unary.map Prod.snd)).toList.dedup.length
    let n_inputs : Int := (alphaCount : Int) ^ n_repeats
    let n_train_tables : Int := (n_unary_tables : Int) - (n_heldout_tables : Int)
    let n_train_compositions : Int :=
      sum_pow n_train_tables max_length - (n_heldout_compositions : Int)
    assert_equal (unary.length : Int) ((n_unary_tables : Int) * n_inputs)
    assert_equal (multiary.length : Int)
      (n_train_compositions * (n_inputs - (n_heldout_inputs : Int)))
    assert_equal (heldout_inputs.length : Int)
      (n_train_compositions * (n_heldout_inputs : Int))
    assert_equal (heldout_compositions.length : Int)
      ((n_heldout_compositions : Int) * n_inputs)
    assert_equal (heldout_tables.length : Int)
      (size_permute_compose (n_train_tables + (n_heldout_tables : Int)) n_inputs max_length -
       size_permute_compose n_train_tables n_inputs max_length -
       size_permute_compose (n_heldout_tables : Int) n_inputs max_length)
    assert_equal (new_compositions.length : Int)
      (size_permute_compose (n_heldout_tables : Int) n_inputs max_length)

/-- `ceil(a / b)` for a positive denominator `b`, written out on the numerator
and denominator so that it evaluates by kernel reduction; whenever the result
is positive (the only case a non-degenerate split meets) it is the exact
ceiling. -/
def ceilDiv (a : Int) (b : Nat) : Int :=
  (a + (b : Int) - 1) / (b : Int)

/-- `_uniform_split`: the script builds a stratification frame (one boolean
column per table name plus a length column) and calls scikit-learn's
`train_test_split`; a stratification `ValueError` is caught and the split is
retried without stratification.  The shuffle orders and the
stratification-failure condition are abstracted into the seeded `RNG`;
`test_size` semantics (`ceil(n * test_size)`, error when the train or test
side would be empty) are concrete.  Returns `(train, test)`. -/
def uniform_split (rng : RNG) (to_split : List (String × String))
    (table_names : List String) (validation_size : Rat)
    (is_stratify : Bool := true) :
    Except String (List (String × String) × List (String × String)) :=
  let _ := table_names
  let n := to_split.length
  let nTest := (ceilDiv ((n : Int) * validation_size.num) validation_size.den).toNat
  if 0 < nTest ∧ nTest < n then
    if is_stratify && !(rng.stratFails n) then
      let permuted := applyPerm (rng.ttsStratSel n) to_split
      .ok (permuted.drop nTest, permuted.take nTest)
    else
      let permuted := applyPerm (rng.ttsPlainSel n) to_split
      .ok (permuted.drop nTest, permuted.take nTest)
  else .error "the resulting train set or test set will be empty"

/-- Generation parameters of `table_lookup_dataset` (the seed is supplied
separately, through the `RNG`). -/
structure Params where
  validation_size : Rat
  max_composition_train : Nat
  n_unary_tables : Nat
  n_heldout_tables : Nat
  n_heldout_compositions : Nat
  n_heldout_inputs : Nat
  add_composition_test : Nat
  is_intermediate : Bool
  is_shuffle : Bool
  is_reverse : Bool
  is_stratify : Bool
  eos : Option String
  max_longer : Nat
  alphabet : List String
  n_repeats : Nat
deriving Repr

/-- The `longer` loop (lines 165-176): down-sample when over the bound, split
seen/incremental/new at the current depth, then extend every table by one more
unary composition (with the default `is_intermediate=True`). -/
def longerLoop (rng : RNG) (unary : List Table) (ntr nte : List String)
    (max_longer : Nat) :
    Nat → Nat → List Table →
    List (List Table) × List (List Table) × List (List Table)
  | 0, _, _ => ([], [], [])
  | k + 1, j, longer =>
    let longer2 :=
      if max_longer < longer.length then
        applyPerm (rng.sampleSel j longer.length max_longer) longer
      else longer
    let s := split_seen_unseen_new longer2 ntr nte
    let next := (listProd unary longer2).map
      (fun xy => compose_table_lookups xy.1 xy.2)
    let rest := longerLoop rng unary ntr nte max_longer k (j + 1) next
    (s.1 :: rest.1, s.2.1 :: rest.2.1, s.2.2 :: rest.2.2)

/-- The six formatted building blocks of the run (plus the train-table names
needed downstream and the formatted `longer` splits). -/
structure Blocks where
  unary : List (String × String)
  multiary : List (String × String)
  heldout_inputs : List (String × String)
  heldout_compositions : List (String × String)
  heldout_tables : List (String × String)
  new_compositions : List (String × String)
  names_unary_train : List String
  longer_seen : List (List (String × String))
  longer_incremental : List (List (String × String))
  longer_new : List (List (String × String))
deriving Repr

/-- Lines 134-186 of `table_lookup_dataset`: table creation, composition,
partitioning, shuffling, the held-out step, the `longer` loop, formatting and
`_check_sizes`. -/
def prepStage (p : Params) (rng : RNG) : Except String Blocks := do
  let unary ← create_N_table_lookup p.n_unary_tables p.alphabet p.n_repeats rng
  let names_unary_train := (pySliceInit unary p.n_heldout_tables).map Table.name
  let names_unary_test := (pySliceLast unary p.n_heldout_tables).map Table.name
  let multiary_lists ← mapME
    (fun r => mapME (reduceE (fun x y => compose_table_lookups x y p.is_intermediate))
      (productRepeat unary r))
    (List.range' 2 (p.max_composition_train - 1))
  let multiary_functions ← flatten multiary_lists
  let split := split_seen_unseen_new multiary_functions names_unary_train names_unary_test
  let shuffled := applyPerm (rng.shuffleIdx split.1.length) split.1
  let held ← heldoutStep rng shuffled p.n_heldout_compositions p.n_heldout_inputs
  let longest := multiary_functions.filter
    (fun t => (pySplit t.name).length == p.max_composition_train)
  let longer0 := (listProd unary longest).map
    (fun xy => compose_table_lookups xy.1 xy.2)
  let longerOut := longerLoop rng unary names_unary_train names_unary_test
    p.max_longer p.add_composition_test 0 longer0
  let longer_seens ← merge_format_inputs rng p.is_shuffle p.is_reverse p.eos longerOut.1
  let longer_incrementals ← merge_format_inputs rng p.is_shuffle p.is_reverse p.eos longerOut.2.1
  let longer_news ← merge_format_inputs rng p.is_shuffle p.is_reverse p.eos longerOut.2.2
  let u ← mergeOne rng p.is_shuffle p.is_reverse p.eos unary
  let mt ← mergeOne rng p.is_shuffle p.is_reverse p.eos held.1
  let hi ← mergeOne rng p.is_shuffle p.is_reverse p.eos held.2.1
  let hc ← mergeOne rng p.is_shuffle p.is_reverse p.eos held.2.2
  let ht ← mergeOne rng p.is_shuffle p.is_reverse p.eos split.2.1
  let nc ← mergeOne rng p.is_shuffle p.is_reverse p.eos split.2.2
  check_sizes u mt hi hc ht nc p.max_composition_train p.n_unary_tables
    p.n_heldout_tables p.n_heldout_compositions p.n_heldout_inputs
  .ok { unary := u, multiary := mt, heldout_inputs := hi,
        heldout_compositions := hc, heldout_tables := ht, new_compositions := nc,
        names_unary_train := names_unary_train,
        longer_seen := longer_seens, longer_incremental := longer_incrementals,
        longer_new := longer_news }

/-- The returned splits of `table_lookup_dataset`. -/
structure Output where
  train : List (String × String)
  validation : List (String × String)
  heldout_inputs : List (String × String)
  heldout_compositions : List (String × String)
  heldout_tables : List (String × String)
  new_compositions : List (String × String)
  longer_seen : List (List (String × String))
  longer_incremental : List (List (String × String))
  longer_new : List (List (String × String))
deriving Repr

/-- `table_lookup_dataset`: the prepared blocks followed by the
train/validation split (note: the script calls `_uniform_split` without
forwarding its own `is_stratify` argument) and `pd.concat([unary, multiary])`
to build the train split. -/
def table_lookup_dataset (p : Params) (rng : RNG) : Except String Output := do
  let bb ← prepStage p rng
  let tv ← uniform_split rng bb.multiary bb.names_unary_train p.validation_size
  .ok { train := bb.unary ++ tv.1, validation := tv.2,
        heldout_inputs := bb.heldout_inputs,
        heldout_compositions := bb.heldout_compositions,
        heldout_tables := bb.heldout_tables,
        new_compositions := bb.new_compositions,
        longer_seen := bb.longer_seen,
        longer_incremental := bb.longer_incremental,
        longer_new := bb.longer_new }

/-- A full run from a seed, as in `main`. -/
def runDataset (p : Params) (seed : Nat) : Except String Output :=
  table_lookup_dataset p (mkRNG seed)


/-- A concrete composed-table collection over the name universe
`t1, t2, t3`. -/
def dfsC1 : List Table :=
  [{ name := "t1 t2", entries := [("0", "1")] },
   { name := "t1 t3", entries := [("0", "1")] },
   { name := "t3 t3", entries := [("0", "1")] }]

/-- Keyed lookup in a table (`table[k]` on a unique index): the value of the
first entry whose key matches. -/
def valueAt (t : Table) (k : String) : Option String :=
  (t.entries.find? (fun e => e.1 == k)).map Prod.snd

/-- Entries of a list of tables tagged with their table's composition name. -/
def taggedEntries (l : List Table) : List (String × String) :=
  l.flatMap (fun t => t.entries.map (fun e => (t.name, e.1)))

/-- Total number of rows across a list of tables. -/
def totalEntries (l : List Table) : Nat :=
  (l.map (fun t => t.entries.length)).sum

/-- A composed-style table whose outputs already contain intermediate
tokens. -/
def tA6 : Table := { name := "ta", entries := [("0", "0 1"), ("1", "1 0")] }

/-- A unary table over the same two-element domain. -/
def tB6 : Table := { name := "tb", entries := [("0", "1"), ("1", "0")] }

/-- A unary table for the C7 scenario, with t1(10)=11. -/
def t1W : Table :=
  { name := "t1", entries := [("00", "00"), ("01", "01"), ("10", "11"), ("11", "10")] }

/-- A unary table for the C7 scenario, with t2(00)=10. -/
def t2W : Table :=
  { name := "t2", entries := [("00", "10"), ("01", "00"), ("10", "01"), ("11", "11")] }

/-- Concrete generation parameters used by witnesses: a binary alphabet of
length-2 strings, three unary tables with one held out, depth-2
compositions. -/
def pW : Params :=
  { validation_size := Rat.mk' 17 50, max_composition_train := 2,
    n_unary_tables := 3, n_heldout_tables := 1, n_heldout_compositions := 1,
    n_heldout_inputs := 1, add_composition_test := 1, is_intermediate := true,
    is_shuffle := true, is_reverse := true, is_stratify := true,
    eos := some ".", max_longer := 10000, alphabet := ["0", "1"], n_repeats := 2 }

/-- The witness parameters with no held-out compositions and no held-out
inputs. -/
def pC3 : Params :=
  { pW with n_heldout_compositions := 0, n_heldout_inputs := 0 }

/-- A concrete pool of composed tables for the held-out step. -/
def poolC4 : List Table :=
  [{ name := "t1 t1", entries := [("0", "0 0"), ("1", "1 1")] },
   { name := "t1 t2", entries := [("0", "1 1"), ("1", "0 0")] },
   { name := "t2 t1", entries := [("0", "0 1"), ("1", "1 0")] }]

/-! ## General lemmas about the embedding's building blocks -/

theorem bind_ok_iff {x : Except String α} {f : α → Except String β} {b : β} :
    (x >>= f) = .ok b ↔ ∃ a, x = .ok a ∧ f a = .ok b := by
  cases x with
  | error e => simp [Bind.bind, Except.bind]
  | ok a => simp [Bind.bind, Except.bind]

theorem mapME_ok_forall₂ {f : α → Except String β} :
    ∀ {l : List α} {l' : List β}, mapME f l = .ok l' →
      List.Forall₂ (fun a b => f a = .ok b) l l' := by
  intro l
  induction l with
  | nil => intro l' h; simp [mapME] at h; simp [← h]
  | cons a as ih =>
    intro l' h
    simp only [mapME, bind_ok_iff, Except.ok.injEq] at h
    obtain ⟨b, hb, bs, hbs, rfl⟩ := h
    exact List.Forall₂.cons hb (ih hbs)

theorem mapME_ok_length {f : α → Except String β} {l : List α} {l' : List β}
    (h : mapME f l = .ok l') : l'.length = l.length :=
  (mapME_ok_forall₂ h).length_eq.symm

theorem applyPerm_range (l : List α) : applyPerm (List.range l.length) l = l := by
  induction l with
  | nil => rfl
  | cons x xs ih =>
    simp only [applyPerm, List.length_cons, List.range_succ_eq_map,
      List.filterMap_cons, List.filterMap_map]
    simpa [Function.comp, applyPerm] using ih

theorem applyPerm_perm {idxs : List Nat} {l : List α}
    (h : idxs.Perm (List.range l.length)) : (applyPerm idxs l).Perm l := by
  have h2 := h.filterMap l.get?
  rw [show List.filterMap l.get? (List.range l.length) = l from applyPerm_range l] at h2
  exact h2

theorem pySlice_append (l : List α) (n : Nat) :
    pySliceInit l n ++ pySliceLast l n = l := by
  by_cases h : n = 0 <;> simp [pySliceInit, pySliceLast, h]

theorem pyTokens_ne_nil (l : List Char) : pyTokens l ≠ [] := by
  induction l with
  | nil => simp [pyTokens]
  | cons c cs ih =>
    by_cases h : c = ' '
    · simp [pyTokens, h]
    · simp only [pyTokens, if_neg h]
      cases hcs : pyTokens cs <;> simp

theorem pyTokens_append_space (xs ys : List Char) :
    pyTokens (xs ++ ' ' :: ys) = pyTokens xs ++ pyTokens ys := by
  induction xs with
  | nil => simp [pyTokens]
  | cons c cs ih =>
    by_cases h : c = ' '
    · simp [pyTokens, h, ih]
    · rw [List.cons_append]
      cases hcs : pyTokens cs with
      | nil => exact absurd hcs (pyTokens_ne_nil cs)
      | cons t ts => simp only [pyTokens, if_neg h, ih, hcs, List.cons_append]

theorem pySplit_append_space (a b : String) :
    pySplit (a ++ " " ++ b) = pySplit a ++ pySplit b := by
  have hdata : (a ++ " " ++ b).data = a.data ++ ' ' :: b.data := by
    simp [String.data_append]
  simp [pySplit, hdata, pyTokens_append_space]

/-! ## C1: the seen/unseen/new split is a partition -/

theorem composed_of_total {t : Table} {univNames name_train name_test : List String}
    (h1 : pySplit t.name ≠ []) (h2 : ∀ tok ∈ pySplit t.name, tok ∈ univNames)
    (hcover : ∀ x ∈ univNames, x ∈ name_train ∨ x ∈ name_test)
    (hb : table_is_composed_of t name_test = false) :
    table_is_composed_of t name_train = true := by
  obtain ⟨tok, htok⟩ := List.exists_mem_of_ne_nil _ h1
  have hmem := hcover tok (h2 tok htok)
  simp only [table_is_composed_of, List.any_eq_false, List.elem_iff,
    decide_eq_true_eq] at hb
  simp only [table_is_composed_of, List.any_eq_true, List.elem_iff,
    decide_eq_true_eq]
  rcases hmem with h | h
  · exact ⟨tok, htok, by simpa [List.elem_iff] using h⟩
  · exact absurd h (by simpa using hb tok htok)

theorem three_filter_length {l : List α} {p q r : α → Bool}
    (h : ∀ x ∈ l,
      (p x = true ∧ q x = false ∧ r x = false) ∨
      (p x = false ∧ q x = true ∧ r x = false) ∨
      (p x = false ∧ q x = false ∧ r x = true)) :
    (l.filter p).length + (l.filter q).length + (l.filter r).length = l.length := by
  induction l with
  | nil => simp
  | cons x xs ih =>
    have hx := h x (by simp)
    have ihx := ih (fun y hy => h y (by simp [hy]))
    rcases hx with ⟨h1, h2, h3⟩ | ⟨h1, h2, h3⟩ | ⟨h1, h2, h3⟩ <;>
      simp [List.filter_cons, h1, h2, h3] <;> omega


/-- C1: for a collection of composed tables whose name tokens are nonempty and
drawn from a unary-table universe, and for disjoint train/held-out name sets
that together cover that universe, `_split_seen_unseen_new` returns three
pairwise-disjoint lists — seen (no held-out token), unseen (a token from
each), new (no train token) — whose lengths sum to the input collection's
length, every input table landing in exactly one of them. -/
theorem split_seen_unseen_new_partition
    (dfs : List Table) (univNames name_train name_test : List String)
    (htok : ∀ t ∈ dfs, pySplit t.name ≠ [] ∧ ∀ tok ∈ pySplit t.name, tok ∈ univNames)
    (hcover : ∀ x ∈ univNames, x ∈ name_train ∨ x ∈ name_test)
    (hdisj : ∀ x ∈ name_train, x ∉ name_test) :
    ((split_seen_unseen_new dfs name_train name_test).1.length +
      (split_seen_unseen_new dfs name_train name_test).2.1.length +
      (split_seen_unseen_new dfs name_train name_test).2.2.length = dfs.length) ∧
    (∀ t ∈ dfs,
      (t ∈ (split_seen_unseen_new dfs name_train name_test).1 ∧
       t ∉ (split_seen_unseen_new dfs name_train name_test).2.1 ∧
       t ∉ (split_seen_unseen_new dfs name_train name_test).2.2) ∨
      (t ∉ (split_seen_unseen_new dfs name_train name_test).1 ∧
       t ∈ (split_seen_unseen_new dfs name_train name_test).2.1 ∧
       t ∉ (split_seen_unseen_new dfs name_train name_test).2.2) ∨
      (t ∉ (split_seen_unseen_new dfs name_train name_test).1 ∧
       t ∉ (split_seen_unseen_new dfs name_train name_test).2.1 ∧
       t ∈ (split_seen_unseen_new dfs name_train name_test).2.2)) := by
  have _ := hdisj
  have tri : ∀ t ∈ dfs,
      (table_is_composed_of t name_test = false ∧
        table_is_composed_of t name_train = true) ∨
      (table_is_composed_of t name_test = true ∧
        table_is_composed_of t name_train = true) ∨
      (table_is_composed_of t name_test = true ∧
        table_is_composed_of t name_train = false) := by
    intro t ht
    obtain ⟨h1, h2⟩ := htok t ht
    cases hb1 : table_is_composed_of t name_test with
    | false => exact Or.inl ⟨rfl, composed_of_total h1 h2 hcover hb1⟩
    | true =>
      cases hb2 : table_is_composed_of t name_train with
      | true => exact Or.inr (Or.inl ⟨rfl, rfl⟩)
      | false => exact Or.inr (Or.inr ⟨rfl, rfl⟩)
  constructor
  · apply three_filter_length
    intro x hx
    rcases tri x hx with ⟨ha, hb⟩ | ⟨ha, hb⟩ | ⟨ha, hb⟩ <;> simp [ha, hb]
  · intro t ht
    rcases tri t ht with ⟨ha, hb⟩ | ⟨ha, hb⟩ | ⟨ha, hb⟩
    · exact Or.inl ⟨List.mem_filter.2 ⟨ht, by simp [ha]⟩,
        by simp [split_seen_unseen_new, List.mem_filter, ha],
        by simp [split_seen_unseen_new, List.mem_filter, hb]⟩
    · exact Or.inr (Or.inl ⟨by simp [split_seen_unseen_new, List.mem_filter, ha],
        List.mem_filter.2 ⟨ht, by simp [ha, hb]⟩,
        by simp [split_seen_unseen_new, List.mem_filter, hb]⟩)
    · exact Or.inr (Or.inr ⟨by simp [split_seen_unseen_new, List.mem_filter, ha],
        by simp [split_seen_unseen_new, List.mem_filter, hb],
        List.mem_filter.2 ⟨ht, by simp [hb]⟩⟩)

/-- C1 witness: the partition theorem applied at a concrete collection and a
concrete disjoint cover of the universe. -/
theorem split_seen_unseen_new_partition_witness :
    (∀ t ∈ dfsC1, pySplit t.name ≠ [] ∧
      ∀ tok ∈ pySplit t.name, tok ∈ ["t1", "t2", "t3"]) ∧
    (∀ x ∈ ["t1", "t2", "t3"], x ∈ ["t1", "t2"] ∨ x ∈ ["t3"]) ∧
    (∀ x ∈ ["t1", "t2"], x ∉ ["t3"]) ∧
    (((split_seen_unseen_new dfsC1 ["t1", "t2"] ["t3"]).1.length +
      (split_seen_unseen_new dfsC1 ["t1", "t2"] ["t3"]).2.1.length +
      (split_seen_unseen_new dfsC1 ["t1", "t2"] ["t3"]).2.2.length = dfsC1.length) ∧
     (∀ t ∈ dfsC1,
      (t ∈ (split_seen_unseen_new dfsC1 ["t1", "t2"] ["t3"]).1 ∧
       t ∉ (split_seen_unseen_new dfsC1 ["t1", "t2"] ["t3"]).2.1 ∧
       t ∉ (split_seen_unseen_new dfsC1 ["t1", "t2"] ["t3"]).2.2) ∨
      (t ∉ (split_seen_unseen_new dfsC1 ["t1", "t2"] ["t3"]).1 ∧
       t ∈ (split_seen_unseen_new dfsC1 ["t1", "t2"] ["t3"]).2.1 ∧
       t ∉ (split_seen_unseen_new dfsC1 ["t1", "t2"] ["t3"]).2.2) ∨
      (t ∉ (split_seen_unseen_new dfsC1 ["t1", "t2"] ["t3"]).1 ∧
       t ∉ (split_seen_unseen_new dfsC1 ["t1", "t2"] ["t3"]).2.1 ∧
       t ∈ (split_seen_unseen_new dfsC1 ["t1", "t2"] ["t3"]).2.2))) :=
  ⟨by decide, by decide, by decide,
   split_seen_unseen_new_partition dfsC1 ["t1", "t2", "t3"] ["t1", "t2"] ["t3"]
     (by decide) (by decide) (by decide)⟩

/-! ## C8: what the pipeline changes about a table -/

/-- C8 counterexample: the formatting stage does change a unary table's keys.
`create_N_table_lookup` produces the identity table `t1` over the domain
`0, 1`, and `format_input` (with reversal and an EOS token, as in the
pipeline) rewrites its keys. -/
theorem format_input_rewrites_keys_counterexample :
    create_N_table_lookup 1 ["0", "1"] 1 (mkRNG 0) =
      .ok [{ name := "t1", entries := [("0", "0"), ("1", "1")] }] ∧
    (format_input { name := "t1", entries := [("0", "0"), ("1", "1")] }
        true (some ".")).entries.map Prod.fst ≠
      [("0", "0"), ("1", "1")].map (Prod.fst (α := String) (β := String)) := by
  constructor
  · rfl
  · decide

/-- C8 amended: composition and partitioning take the tables as read-only
inputs — the three partition lists are sublists of the input collection — and
`format_input` only re-keys a table: it preserves the name and the output
values (in order), changing nothing but the keys. -/
theorem pipeline_preserves_table_values
    (t : Table) (is_reverse : Bool) (eos : Option String)
    (dfs : List Table) (ntr nte : List String) :
    ((format_input t is_reverse eos).name = t.name ∧
     (format_input t is_reverse eos).entries.map Prod.snd = t.entries.map Prod.snd) ∧
    ((∀ x ∈ (split_seen_unseen_new dfs ntr nte).1, x ∈ dfs) ∧
     (∀ x ∈ (split_seen_unseen_new dfs ntr nte).2.1, x ∈ dfs) ∧
     (∀ x ∈ (split_seen_unseen_new dfs ntr nte).2.2, x ∈ dfs)) := by
  refine ⟨⟨rfl, ?_⟩, ?_, ?_, ?_⟩
  · unfold format_input
    cases eos with
    | none => cases is_reverse <;> simp [List.map_map, Function.comp]
    | some e =>
      by_cases he : e = "" <;> cases is_reverse <;>
        simp [he, format_input.step3Append, List.map_map, Function.comp]
  all_goals exact fun x hx => (List.mem_filter.1 hx).1

/-! ## C6: stripping intermediate outputs -/

/-- C6 counterexample: for a left table whose outputs already contain
intermediate tokens, the non-intermediate composed output at input `0` is the
multi-token value `1 0`, while the last token of the intermediate composed
output is `0` — the claimed equality fails. -/
theorem compose_intermediate_strip_counterexample :
    valueAt (compose_table_lookups tA6 tB6 false) "0" = some "1 0" ∧
    (valueAt (compose_table_lookups tA6 tB6 true) "0").bind pyLastToken = some "0" ∧
    some "1 0" ≠ (some "0" : Option String) := by decide

theorem pyLastToken_append_single {a b : String} (hb : pyLastToken b = some b) :
    pyLastToken (a ++ " " ++ b) = some b := by
  have hne : pySplit b ≠ [] := by
    intro h
    rw [pyLastToken, h] at hb
    simp at hb
  rw [pyLastToken, pySplit_append_space, List.getLast?_append_of_ne_nil _ hne]
  exact hb

theorem compose_strip_forall₂ (t1 t2 : Table)
    (hsingle : ∀ e ∈ t1.entries, pyLastToken e.2 = some e.2) :
    List.Forall₂ (fun a b => a.1 = b.1 ∧ pyLastToken b.2 = some a.2)
      (compose_table_lookups t1 t2 false).entries
      (compose_table_lookups t1 t2 true).entries := by
  show List.Forall₂ (fun a b => a.1 = b.1 ∧ pyLastToken b.2 = some a.2)
    (t2.entries.flatMap (fun r =>
      match pyLastToken r.2 with
      | none => []
      | some nxt => (t1.entries.filter (fun l => l.1 == nxt)).map
          (fun l => (r.1, l.2))))
    (t2.entries.flatMap (fun r =>
      match pyLastToken r.2 with
      | none => []
      | some nxt => (t1.entries.filter (fun l => l.1 == nxt)).map
          (fun l => (r.1, r.2 ++ " " ++ l.2))))
  induction t2.entries with
  | nil => simp
  | cons r rs ih =>
    simp only [List.flatMap_cons]
    refine List.rel_append ?_ ih
    cases hlt : pyLastToken r.2 with
    | none => simp [hlt]
    | some nxt =>
      simp only [hlt]
      rw [List.forall₂_map_right_iff, List.forall₂_map_left_iff, List.forall₂_same]
      intro l hl
      exact ⟨rfl, pyLastToken_append_single (hsingle l (List.mem_of_mem_filter hl))⟩

theorem valueAt_strip_of_forall₂ {xs ys : List (String × String)} {k : String}
    (h : List.Forall₂ (fun a b => a.1 = b.1 ∧ pyLastToken b.2 = some a.2) xs ys) :
    ((ys.find? (fun e => e.1 == k)).map Prod.snd).bind pyLastToken =
      (xs.find? (fun e => e.1 == k)).map Prod.snd := by
  induction h with
  | nil => simp
  | cons hab h ih =>
    obtain ⟨h1, h2⟩ := hab
    rename_i a b xs ys
    simp only [List.find?_cons]
    rw [← h1]
    by_cases hk : a.1 == k
    · simp [hk, h2]
    · simp [hk, ih]

/-- C6 amended: whenever the left table's output values are single nonempty
tokens (as for every unary table, and for every table composed with
`is_intermediate=False`), composing with `is_intermediate=False` yields, input
by input, exactly the last space-separated token of the
`is_intermediate=True` output. -/
theorem compose_intermediate_strip (t1 t2 : Table) (k : String)
    (hsingle : ∀ e ∈ t1.entries, pyLastToken e.2 = some e.2) :
    (valueAt (compose_table_lookups t1 t2 true) k).bind pyLastToken =
      valueAt (compose_table_lookups t1 t2 false) k :=
  valueAt_strip_of_forall₂ (compose_strip_forall₂ t1 t2 hsingle)

/-- C6 amended witness: the stripping identity applied at concrete unary
tables. -/
theorem compose_intermediate_strip_witness :
    (∀ e ∈ tB6.entries, pyLastToken e.2 = some e.2) ∧
    (valueAt (compose_table_lookups tB6 tB6 true) "0").bind pyLastToken =
      valueAt (compose_table_lookups tB6 tB6 false) "0" :=
  ⟨by decide, compose_intermediate_strip tB6 tB6 "0" (by decide)⟩

/-! ## C7: the composition/formatting scenario -/

theorem filter_eq_cons_of_find? {l : List α} {p : α → Bool} {x : α}
    (h : l.find? p = some x) : ∃ tl, l.filter p = x :: tl := by
  induction l with
  | nil => simp at h
  | cons a as ih =>
    by_cases hp : p a
    · rw [List.find?_cons_of_pos _ hp] at h
      obtain rfl : a = x := by simpa using h
      exact ⟨as.filter p, by simp [List.filter_cons, hp]⟩
    · rw [List.find?_cons_of_neg _ hp] at h
      obtain ⟨tl, htl⟩ := ih h
      exact ⟨tl, by simp [List.filter_cons, hp, htl]⟩

theorem find?_eq_of_head? {l : List α} {p : α → Bool} {x : α}
    (hh : l.head? = some x) (hp : p x = true) : l.find? p = some x := by
  cases l with
  | nil => simp at hh
  | cons a as =>
    obtain rfl : a = x := by simpa using hh
    exact List.find?_cons_of_pos _ hp

/-- C7: for unary tables named `t1` and `t2` over the domain
`00, 01, 10, 11` with `t2(00)=10` and `t1(10)=11`, composing with
`is_intermediate=True` and formatting with `is_reverse=True` and EOS `.`
produces, at the formatted key `00 t2 t1 .`, the value `10 11`. -/
theorem compose_format_scenario (t1 t2 : Table)
    (hn1 : t1.name = "t1") (hn2 : t2.name = "t2")
    (hk1 : t1.entries.map Prod.fst = ["00", "01", "10", "11"])
    (hk2 : t2.entries.map Prod.fst = ["00", "01", "10", "11"])
    (hv2 : t2.entries.head? = some ("00", "10"))
    (hv1 : t1.entries.find? (fun e => e.1 == "10") = some ("10", "11")) :
    valueAt (format_input (compose_table_lookups t1 t2 true) true (some "."))
      "00 t2 t1 ." = some "10 11" := by
  have _ := hk1
  have _ := hk2
  obtain ⟨e, es, he⟩ : ∃ e es, t2.entries = e :: es := by
    cases h : t2.entries with
    | nil => rw [h] at hv2; simp at hv2
    | cons e es => exact ⟨e, es, rfl⟩
  have he2 : e = ("00", "10") := by rw [he] at hv2; simpa using hv2
  subst he2
  obtain ⟨tl, htl⟩ := filter_eq_cons_of_find? hv1
  have hc : (compose_table_lookups t1 t2 true).entries.head? =
      some ("00", "10 11") := by
    show (t2.entries.flatMap (fun r =>
      match pyLastToken r.2 with
      | none => []
      | some nxt => (t1.entries.filter (fun l => l.1 == nxt)).map
          (fun l => (r.1, r.2 ++ " " ++ l.2)))).head? = _
    rw [he]
    simp only [List.flatMap_cons]
    have hlt : pyLastToken "10" = some "10" := by decide
    simp only [hlt, htl, List.map_cons, List.cons_append, List.head?_cons]
    rfl
  have hname : (compose_table_lookups t1 t2 true).name = "t1 t2" := by
    show composedName t1.name t2.name = "t1 t2"
    rw [hn1, hn2]
    decide
  have hfmt : (format_input (compose_table_lookups t1 t2 true) true
      (some ".")).entries =
      ((((compose_table_lookups t1 t2 true).entries.map
          (fun e => ((compose_table_lookups t1 t2 true).name ++ " " ++ e.1, e.2))).map
          (fun e => (String.intercalate " " (pySplit e.1).reverse, e.2))).map
          (fun e => (e.1 ++ " " ++ ".", e.2))) := rfl
  have hfh : (format_input (compose_table_lookups t1 t2 true) true
      (some ".")).entries.head? = some ("00 t2 t1 .", "10 11") := by
    rw [hfmt]
    simp only [List.head?_map, hc, hname, Option.map_some]
    decide
  rw [valueAt, find?_eq_of_head? hfh (by decide)]
  rfl

/-- C7 witness: the scenario theorem applied at concrete permutation
tables. -/
theorem compose_format_scenario_witness :
    (t1W.name = "t1" ∧ t2W.name = "t2" ∧
     t1W.entries.map Prod.fst = ["00", "01", "10", "11"] ∧
     t2W.entries.map Prod.fst = ["00", "01", "10", "11"] ∧
     t2W.entries.head? = some ("00", "10") ∧
     t1W.entries.find? (fun e => e.1 == "10") = some ("10", "11")) ∧
    valueAt (format_input (compose_table_lookups t1W t2W true) true (some "."))
      "00 t2 t1 ." = some "10 11" :=
  ⟨⟨rfl, rfl, by decide, by decide, by decide, by decide⟩,
   compose_format_scenario t1W t2W rfl rfl (by decide) (by decide) (by decide)
     (by decide)⟩

/-! ## C9: the unused `is_stratify` argument -/

/-- C9 (refuting the claim): `table_lookup_dataset` never reads its
`is_stratify` argument — line 189 of the script calls `_uniform_split`
without forwarding it, so `_uniform_split` always runs with its own default
`is_stratify=True` and the run's result is identical for `is_stratify=False`
and `is_stratify=True`. -/
theorem is_stratify_has_no_effect (p : Params) (rng : RNG) (b : Bool) :
    table_lookup_dataset { p with is_stratify := b } rng =
      table_lookup_dataset p rng := rfl

/-! ## C10: `max_composition_train < 2` raises -/

/-- C10: with `max_composition_train < 2`, `range(2, max+1)` is empty, so the
multiary construction hands `flatten` (a `reduce` with no initial value) an
empty sequence and the run raises instead of returning. -/
theorem max_composition_lt_two_errors (p : Params) (rng : RNG)
    (h : p.max_composition_train < 2) :
    (table_lookup_dataset p rng).isOk = false := by
  unfold table_lookup_dataset
  have hps : ∃ e, prepStage p rng = .error e := by
    unfold prepStage
    cases hcr : create_N_table_lookup p.n_unary_tables p.alphabet p.n_repeats rng with
    | error e => exact ⟨e, by simp [Bind.bind, Except.bind, hcr]⟩
    | ok unary =>
      have hr : List.range' 2 (p.max_composition_train - 1) = [] := by
        have h0 : p.max_composition_train - 1 = 0 := by omega
        rw [h0]
        rfl
      refine ⟨"reduce() of empty sequence with no initial value", ?_⟩
      simp [Bind.bind, Except.bind, hcr, hr, mapME, flatten, reduceE]
  obtain ⟨e, he⟩ := hps
  simp [Bind.bind, Except.bind, he, Except.isOk, Except.toBool]

/-- C10 witness: a concrete run with `max_composition_train = 1` errors. -/
theorem max_composition_lt_two_errors_witness :
    ({ pW with max_composition_train := 1 } : Params).max_composition_train < 2 ∧
    (table_lookup_dataset { pW with max_composition_train := 1 }
      (mkRNG 0)).isOk = false :=
  ⟨by decide, max_composition_lt_two_errors _ (mkRNG 0) (by decide)⟩

/-! ## C5: determinism in the seed -/

/-- C5: a run of the generator is a function of its parameters and its seed
alone — every stochastic step draws from the seeded random source
`mkRNG seed` — so two runs with identical parameters and identical seeds
return identical outputs, split by split. -/
theorem runDataset_deterministic (p₁ p₂ : Params) (s₁ s₂ : Nat)
    (hp : p₁ = p₂) (hs : s₁ = s₂) :
    runDataset p₁ s₁ = runDataset p₂ s₂ := by rw [hp, hs]

/-- C5 witness: two runs at the same concrete parameters and seed agree. -/
theorem runDataset_deterministic_witness :
    pW = pW ∧ (123 : Nat) = 123 ∧ runDataset pW 123 = runDataset pW 123 :=
  ⟨rfl, rfl, runDataset_deterministic pW pW 123 123 rfl rfl⟩

/-! ## C3: `n_heldout_compositions = 0` holds out everything -/

/-- C3 (refuting the claim): with `n_heldout_compositions = 0` the Python
slices `multiary_train[-0:]` and `multiary_train[:-0]` are the whole list and
the empty list, so the held-out step moves the ENTIRE shuffled seen pool into
`heldout_compositions` and empties the training pool (shown on a concrete
pool); in a full run the subsequent `pd.concat` over the empty training group
then raises, so the run errors instead of returning empty held-out splits
with the training pool unchanged. -/
theorem zero_heldout_compositions_bug :
    heldoutStep (mkRNG 0) poolC4 0 0 = .ok ([], [], poolC4) ∧
    (table_lookup_dataset pC3 (mkRNG 0)).isOk = false := by
  constructor
  · rfl
  · rfl

/-! ## C4: the held-out step separates and conserves entries -/

theorem npChoice_ok {rng : RNG} {c : Nat} {labels : List String} {k : Nat}
    {d : List String} (h : npChoice rng c labels k = .ok d) :
    k ≤ labels.length ∧ d = rng.choiceSel c labels k := by
  unfold npChoice at h
  split at h
  · refine ⟨by assumption, ?_⟩
    simpa using h.symm
  · exact absurd h (by simp)

theorem length_filterMap_of_isSome {f : α → Option β} :
    ∀ {l : List α}, (∀ x ∈ l, (f x).isSome) → (l.filterMap f).length = l.length := by
  intro l
  induction l with
  | nil => simp
  | cons a as ih =>
    intro h
    have ha := h a (by simp)
    obtain ⟨b, hb⟩ := Option.isSome_iff_exists.1 ha
    simp [List.filterMap_cons, hb, ih (fun x hx => h x (by simp [hx]))]

theorem filter_bool_length_add (l : List α) (p : α → Bool) :
    (l.filter p).length + (l.filter (fun x => ! p x)).length = l.length := by
  induction l with
  | nil => simp
  | cons a as ih =>
    by_cases hp : p a <;> simp [List.filter_cons, hp] <;> omega

theorem nodup_filter_contains_length {K held : List String}
    (hK : K.Nodup) (hh : held.Nodup) (hsub : ∀ x ∈ held, x ∈ K) :
    (K.filter (fun k => held.contains k)).length = held.length := by
  have h1 : (K.filter (fun k => held.contains k)).Nodup := hK.filter _
  have h2 : (K.filter (fun k => held.contains k)).toFinset = held.toFinset := by
    ext x
    simp only [List.mem_toFinset, List.mem_filter, List.elem_iff]
    exact ⟨fun hx => hx.2, fun hx => ⟨hsub x hx, hx⟩⟩
  have h3 := List.toFinset_card_of_nodup h1
  have h4 := List.toFinset_card_of_nodup hh
  rw [h2, h4] at h3
  exact h3.symm

theorem mem_taggedEntries {l : List Table} {e : String × String} :
    e ∈ taggedEntries l ↔ ∃ t ∈ l, t.name = e.1 ∧ e.2 ∈ t.entries.map Prod.fst := by
  obtain ⟨e1, e2⟩ := e
  simp only [taggedEntries, List.mem_flatMap, List.mem_map]
  constructor
  · rintro ⟨t, ht, en, hen, heq⟩
    obtain ⟨rfl, rfl⟩ := Prod.mk.injEq .. ▸ And.intro (congrArg Prod.fst heq) (congrArg Prod.snd heq)
    exact ⟨t, ht, rfl, en, hen, rfl⟩
  · rintro ⟨t, ht, h1, en, hen, h2⟩
    refine ⟨t, ht, en, hen, ?_⟩
    rw [h1, h2]

theorem forall₂_mem_right {R : α → β → Prop} :
    ∀ {l₁ : List α} {l₂ : List β}, List.Forall₂ R l₁ l₂ →
      ∀ b ∈ l₂, ∃ a ∈ l₁, R a b := by
  intro l₁ l₂ h
  induction h with
  | nil => simp
  | cons hab h ih =>
    intro b hb
    rcases List.mem_cons.1 hb with rfl | hb
    · exact ⟨_, by simp, hab⟩
    · obtain ⟨a, ha, har⟩ := ih b hb
      exact ⟨a, by simp [ha], har⟩

theorem forall₂_imp_mem {R S : α → β → Prop} :
    ∀ {l₁ : List α} {l₂ : List β}, List.Forall₂ R l₁ l₂ →
      (∀ a ∈ l₁, ∀ b, R a b → S a b) → List.Forall₂ S l₁ l₂ := by
  intro l₁ l₂ h
  induction h with
  | nil => intro _; constructor
  | cons hab h ih =>
    intro himp
    exact List.Forall₂.cons (himp _ (by simp) _ hab)
      (ih (fun a ha b hr => himp a (by simp [ha]) b hr))

theorem forall₂_map_eq {R : α → β → Prop} {f : β → γ} {g : α → γ}
    {l₁ : List α} {l₂ : List β} (h : List.Forall₂ R l₁ l₂)
    (hfg : ∀ a b, R a b → f b = g a) : l₂.map f = l₁.map g := by
  induction h with
  | nil => rfl
  | cons hab h ih => simp [hfg _ _ hab, ih]

theorem forall₂_of_enumFrom {R : α → β → Prop} :
    ∀ {i : Nat} {l : List α} {l' : List β},
      List.Forall₂ (fun (a : Nat × α) b => R a.2 b) (l.enumFrom i) l' →
      List.Forall₂ R l l' := by
  intro i l
  induction l generalizing i with
  | nil =>
    intro l' h
    cases h
    constructor
  | cons x xs ih =>
    intro l' h
    rw [show List.enumFrom i (x :: xs) = (i, x) :: List.enumFrom (i + 1) xs from rfl] at h
    cases h with
    | cons hab htail => exact List.Forall₂.cons hab (ih htail)

theorem forall₂_zip_fuse {R : α → β → Prop} {S : β × α → γ → Prop} :
    ∀ {l₁ : List α} {l₂ : List β} {l₃ : List γ},
      List.Forall₂ R l₁ l₂ → List.Forall₂ S (l₂.zip l₁) l₃ →
      List.Forall₂ (fun a c => ∃ b, R a b ∧ S (b, a) c) l₁ l₃ := by
  intro l₁ l₂ l₃ h1
  induction h1 generalizing l₃ with
  | nil =>
    intro h2
    cases h2
    constructor
  | cons hab h ih =>
    intro h2
    rw [List.zip_cons_cons] at h2
    cases h2 with
    | cons hS htail => exact List.Forall₂.cons ⟨_, hab, hS⟩ (ih htail)

theorem totalEntries_append (a b : List Table) :
    totalEntries (a ++ b) = totalEntries a + totalEntries b := by
  simp [totalEntries]

theorem totals_of_forall₂ {mt0 : List Table} {pairs : List (Table × Table)}
    (h : List.Forall₂
      (fun t pr => pr.1.entries.length + pr.2.entries.length = t.entries.length)
      mt0 pairs) :
    totalEntries (pairs.map Prod.fst) + totalEntries (pairs.map Prod.snd) =
      totalEntries mt0 := by
  induction h with
  | nil => rfl
  | cons hab h ih =>
    simp only [List.map_cons, totalEntries, List.sum_cons] at *
    omega

/-- The per-table relation established by the held-out step between an input
table and its (heldout-input rows, remaining rows) pair of tables. -/
def heldoutRel (t : Table) (pr : Table × Table) : Prop :=
  pr.1.name = t.name ∧ pr.2.name = t.name ∧
  (∀ k, k ∈ pr.1.entries.map Prod.fst → k ∉ pr.2.entries.map Prod.fst) ∧
  pr.1.entries.length + pr.2.entries.length = t.entries.length

theorem heldoutRel_of_choice {rng : RNG} (hwf : rng.WF) {n_hi : Nat}
    {t : Table} {pr : Table × Table} {d : List String}
    (hk : (t.entries.map Prod.fst).Nodup)
    (hch : ∃ c, npChoice rng c (t.entries.map Prod.fst) n_hi = .ok d)
    (hG : (if d.all (fun lbl => t.entries.any (fun e => e.1 == lbl)) then
        Except.ok (heldoutPick d t, heldoutDrop d t)
      else Except.error "KeyError") = .ok pr) :
    heldoutRel t pr := by
  obtain ⟨c, hch⟩ := hch
  obtain ⟨hle, hd⟩ := npChoice_ok hch
  obtain ⟨hlen, hdn, hsubd⟩ := hwf.2.2.1 c (t.entries.map Prod.fst) n_hi hk hle
  rw [← hd] at hdn hsubd
  cases hcnd : d.all (fun lbl => t.entries.any (fun e => e.1 == lbl)) with
  | false =>
    rw [hcnd] at hG
    simp at hG
  | true =>
    rw [hcnd] at hG
    simp only [if_true] at hG
    have hfound : ∀ lbl ∈ d, t.entries.any (fun e => e.1 == lbl) :=
      fun lbl hlbl => List.all_eq_true.1 hcnd lbl hlbl
    obtain rfl := Except.ok.inj hG
    refine ⟨rfl, rfl, ?_, ?_⟩
    · intro k hk1 hk2
      have hkd : k ∈ d := by
        simp only [heldoutPick, List.mem_map, List.mem_filterMap] at hk1
        obtain ⟨en, ⟨lbl, hlbl, hsome⟩, hfst⟩ := hk1
        obtain ⟨e0, _, he0⟩ := Option.map_eq_some'.1 hsome
        rw [← he0] at hfst
        simpa [← hfst] using hlbl
      simp only [heldoutDrop, List.mem_map, List.mem_filter] at hk2
      obtain ⟨en, ⟨_, hnc⟩, hfst⟩ := hk2
      have h5 : en.1 ∉ d := by simpa using hnc
      rw [hfst] at h5
      exact h5 hkd
    · show (heldoutPick d t).entries.length + (heldoutDrop d t).entries.length =
          t.entries.length
      have hlen1 : (d.filterMap (fun lbl =>
          (t.entries.find? (fun e => e.1 == lbl)).map
            (fun e => (lbl, e.2)))).length = d.length := by
        apply length_filterMap_of_isSome
        intro lbl hlbl
        obtain ⟨e0, he0m, he0⟩ := List.any_eq_true.1 (hfound lbl hlbl)
        have h6 : (t.entries.find? (fun e => e.1 == lbl)).isSome :=
          List.find?_isSome.2 ⟨e0, he0m, he0⟩
        simpa using h6
      have hsplit := filter_bool_length_add t.entries (fun e => d.contains e.1)
      have hcount : (t.entries.filter (fun e => d.contains e.1)).length = d.length := by
        have hmapeq : (t.entries.map Prod.fst).filter (fun k => d.contains k) =
            (t.entries.filter (fun e => d.contains e.1)).map Prod.fst := by
          rw [List.filter_map]
          rfl
        have h7 := nodup_filter_contains_length hk hdn hsubd
        rw [hmapeq, List.length_map] at h7
        exact h7
      simp only [heldoutPick, heldoutDrop, hlen1]
      omega

/-- C4: for any (already shuffled) seen pool whose tables have unique keys and
pairwise-distinct composition names, and a well-formed random source, the
held-out step's three outputs are pairwise disjoint as
(composition name, input) entries and their total entry count equals the
pool's: entries are moved, never duplicated or lost. -/
theorem heldoutStep_disjoint_conserved (rng : RNG) (pool : List Table)
    (n_hc n_hi : Nat) (mt hi hc : List Table)
    (hwf : rng.WF)
    (hkeys : ∀ t ∈ pool, (t.entries.map Prod.fst).Nodup)
    (hnames : (pool.map Table.name).Nodup)
    (hstep : heldoutStep rng pool n_hc n_hi = .ok (mt, hi, hc)) :
    (∀ e ∈ taggedEntries hc, e ∉ taggedEntries mt) ∧
    (∀ e ∈ taggedEntries hi, e ∉ taggedEntries mt ∧ e ∉ taggedEntries hc) ∧
    (totalEntries hc + totalEntries hi + totalEntries mt = totalEntries pool) := by
  unfold heldoutStep at hstep
  simp only [bind_ok_iff] at hstep
  obtain ⟨di, hdi, pairs, hpairs, hout⟩ := hstep
  simp only [Except.ok.injEq, Prod.mk.injEq] at hout
  obtain ⟨hmt, hhi, hhc⟩ := hout
  have hF1 := mapME_ok_forall₂ hdi
  have hF2 := mapME_ok_forall₂ hpairs
  have hmem0 : ∀ t ∈ pySliceInit pool n_hc, t ∈ pool := by
    intro t ht
    rw [← pySlice_append pool n_hc]
    exact List.mem_append_left _ ht
  have hF1' : List.Forall₂
      (fun t d => ∃ c, npChoice rng c (t.entries.map Prod.fst) n_hi = .ok d)
      (pySliceInit pool n_hc) di :=
    forall₂_of_enumFrom (hF1.imp (fun a d h => ⟨a.1, h⟩))
  have hrel : List.Forall₂ heldoutRel (pySliceInit pool n_hc) pairs := by
    refine forall₂_imp_mem (forall₂_zip_fuse hF1' hF2) ?_
    intro t ht pr h
    obtain ⟨d, hch, hG⟩ := h
    exact heldoutRel_of_choice hwf (hkeys t (hmem0 t ht)) hch hG
  have hn1 : pairs.map (fun pr => pr.1.name) =
      (pySliceInit pool n_hc).map Table.name :=
    forall₂_map_eq hrel (fun t pr h => h.1)
  have hn2 : pairs.map (fun pr => pr.2.name) =
      (pySliceInit pool n_hc).map Table.name :=
    forall₂_map_eq hrel (fun t pr h => h.2.1)
  have hsplitp : pool.map Table.name =
      (pySliceInit pool n_hc).map Table.name ++
        (pySliceLast pool n_hc).map Table.name := by
    rw [← List.map_append, pySlice_append]
  have hnodup2 : ((pySliceInit pool n_hc).map Table.name ++
      (pySliceLast pool n_hc).map Table.name).Nodup := by
    rw [← hsplitp]
    exact hnames
  obtain ⟨hnA, hnB, hdisjn⟩ := List.nodup_append.1 hnodup2
  -- name of an entry of `mt` lies among the names of the initial slice
  have hname_mt : ∀ e ∈ taggedEntries mt,
      e.1 ∈ (pySliceInit pool n_hc).map Table.name := by
    intro e he
    obtain ⟨t, ht, hn, _⟩ := mem_taggedEntries.1 he
    rw [← hmt] at ht
    obtain ⟨pr, hpr, rfl⟩ := List.mem_map.1 ht
    rw [← hn2]
    exact List.mem_map.2 ⟨pr, hpr, hn⟩
  have hname_hi : ∀ e ∈ taggedEntries hi,
      e.1 ∈ (pySliceInit pool n_hc).map Table.name := by
    intro e he
    obtain ⟨t, ht, hn, _⟩ := mem_taggedEntries.1 he
    rw [← hhi] at ht
    obtain ⟨pr, hpr, rfl⟩ := List.mem_map.1 ht
    rw [← hn1]
    exact List.mem_map.2 ⟨pr, hpr, hn⟩
  have hname_hc : ∀ e ∈ taggedEntries hc,
      e.1 ∈ (pySliceLast pool n_hc).map Table.name := by
    intro e he
    obtain ⟨t, ht, hn, _⟩ := mem_taggedEntries.1 he
    rw [← hhc] at ht
    rw [← hn]
    exact List.mem_map.2 ⟨t, ht, rfl⟩
  refine ⟨?_, ?_, ?_⟩
  · intro e hehc hemt
    exact hdisjn (hname_mt e hemt) (hname_hc e hehc)
  · intro e hehi
    constructor
    · intro hemt
      obtain ⟨tA, htA, hnameA, hkA⟩ := mem_taggedEntries.1 hehi
      obtain ⟨tB, htB, hnameB, hkB⟩ := mem_taggedEntries.1 hemt
      rw [← hhi] at htA
      rw [← hmt] at htB
      obtain ⟨prA, hprA, rfl⟩ := List.mem_map.1 htA
      obtain ⟨prB, hprB, rfl⟩ := List.mem_map.1 htB
      have hprnames : ∀ pr ∈ pairs, pr.1.name = pr.2.name := by
        intro pr hpr
        obtain ⟨t, _, hrelp⟩ := forall₂_mem_right hrel pr hpr
        rw [hrelp.1, hrelp.2.1]
      have hnodupP : (pairs.map (fun pr => pr.1.name)).Nodup := by
        rw [hn1]
        exact hnA
      have heqn : prA.1.name = prB.1.name := by
        rw [hnameA, hprnames prB hprB, hnameB]
      have heq : prA = prB :=
        List.inj_on_of_nodup_map hnodupP hprA hprB heqn
      subst heq
      obtain ⟨t, _, hrelp⟩ := forall₂_mem_right hrel prA hprA
      exact hrelp.2.2.1 e.2 hkA hkB
    · intro hehc
      exact hdisjn (hname_hi e hehi) (hname_hc e hehc)
  · have htot := totals_of_forall₂ (hrel.imp (fun _ _ h => h.2.2.2))
    have hpool : totalEntries pool =
        totalEntries (pySliceInit pool n_hc) +
          totalEntries (pySliceLast pool n_hc) := by
      conv_lhs => rw [← pySlice_append pool n_hc]
      exact totalEntries_append _ _
    rw [← hmt, ← hhi, ← hhc, hpool]
    omega

/-- The concrete seeded random source is well-formed: rotations are
permutations and prefixes of rotations are distinct in-range selections. -/
theorem mkRNG_wf (seed : Nat) : (mkRNG seed).WF := by
  unfold RNG.WF mkRNG
  refine ⟨?_, ?_, ?_, ?_⟩
  · intro n
    exact List.rotate_perm _ _
  · intro P N hle
    refine ⟨?_, ?_, ?_⟩
    · rw [List.length_take, List.length_rotate, List.length_range]
      omega
    · exact List.Nodup.sublist (List.take_sublist _ _)
        (((List.rotate_perm _ _).nodup_iff).2 (List.nodup_range P))
    · intro i hi
      have h1 := List.mem_of_mem_take hi
      rw [List.mem_rotate, List.mem_range] at h1
      exact h1
  · intro c labels k hnd hle
    refine ⟨?_, ?_, ?_⟩
    · rw [List.length_take, List.length_rotate]
      omega
    · exact List.Nodup.sublist (List.take_sublist _ _)
        (((List.rotate_perm _ _).nodup_iff).2 hnd)
    · intro x hx
      have h1 := List.mem_of_mem_take hx
      rw [List.mem_rotate] at h1
      exact h1
  · intro n
    exact List.rotate_perm _ _

/-- C4 witness: the held-out separation/conservation theorem applied to a
concrete pool and the concrete seeded source. -/
theorem heldoutStep_disjoint_conserved_witness :
    (mkRNG 0).WF ∧
    (∀ t ∈ poolC4, (t.entries.map Prod.fst).Nodup) ∧
    (poolC4.map Table.name).Nodup ∧
    ∃ mt hi hc, heldoutStep (mkRNG 0) poolC4 1 1 = .ok (mt, hi, hc) ∧
      ((∀ e ∈ taggedEntries hc, e ∉ taggedEntries mt) ∧
       (∀ e ∈ taggedEntries hi, e ∉ taggedEntries mt ∧ e ∉ taggedEntries hc) ∧
       (totalEntries hc + totalEntries hi + totalEntries mt =
         totalEntries poolC4)) := by
  refine ⟨mkRNG_wf 0, by decide, by decide, ?_⟩
  have hok : (heldoutStep (mkRNG 0) poolC4 1 1).isOk = true := by decide
  cases hstep : heldoutStep (mkRNG 0) poolC4 1 1 with
  | error e =>
    rw [hstep] at hok
    simp [Except.isOk, Except.toBool] at hok
  | ok res =>
    obtain ⟨mt, hi, hc⟩ := res
    exact ⟨mt, hi, hc, rfl,
      heldoutStep_disjoint_conserved (mkRNG 0) poolC4 1 1 mt hi hc (mkRNG_wf 0)
        (by decide) (by decide) hstep⟩

/-! ## C2: permutations, the domain, and character counts -/

theorem removals_perm {l : List α} :
    ∀ {a : α} {rest : List α}, (a, rest) ∈ removals l → l.Perm (a :: rest) := by
  induction l with
  | nil => intro a rest h; simp [removals] at h
  | cons x xs ih =>
    intro a rest h
    simp only [removals, List.mem_cons, List.mem_map] at h
    rcases h with h | ⟨pr, hpr, heq⟩
    · injection h with h1 h2
      subst h1; subst h2
      exact List.Perm.refl _
    · injection heq with h1 h2
      subst h1
      rw [← h2]
      have h3 : xs.Perm (pr.1 :: pr.2) := ih (by simpa using hpr)
      exact (h3.cons x).trans (List.Perm.swap pr.1 x pr.2)

theorem permsLexAux_perm :
    ∀ {n : Nat} {l q : List α}, q ∈ permsLexAux n l → l.length = n → q.Perm l := by
  intro n
  induction n with
  | zero =>
    intro l q hq hl
    simp only [permsLexAux, List.mem_singleton] at hq
    subst hq
    rw [List.length_eq_zero.1 hl]
  | succ n ih =>
    intro l q hq hl
    simp only [permsLexAux, List.mem_flatMap, List.mem_map] at hq
    obtain ⟨pr, hpr, q', hq', rfl⟩ := hq
    have hperm := removals_perm (l := l) (by simpa using hpr)
    have hlen : pr.2.length = n := by
      have h4 := hperm.length_eq
      simp only [List.length_cons] at h4
      omega
    exact ((ih hq' hlen).cons pr.1).trans hperm.symm

theorem permsLex_mem_perm {l q : List α} (h : q ∈ permsLex l) : q.Perm l :=
  permsLexAux_perm h rfl

theorem productRepeat_mem {l : List α} :
    ∀ {n : Nat} {xs : List α}, xs ∈ productRepeat l n →
      xs.length = n ∧ ∀ a ∈ xs, a ∈ l := by
  intro n
  induction n with
  | zero =>
    intro xs h
    simp only [productRepeat, List.mem_singleton] at h
    subst h
    simp
  | succ n ih =>
    intro xs h
    simp only [productRepeat, List.mem_flatMap, List.mem_map] at h
    obtain ⟨x, hx, ys, hys, rfl⟩ := h
    obtain ⟨h1, h2⟩ := ih hys
    refine ⟨by simp [h1], ?_⟩
    intro a ha
    rcases List.mem_cons.1 ha with rfl | ha
    · exact hx
    · exact h2 a ha

theorem replicate_mem_productRepeat {l : List α} {a : α} (ha : a ∈ l) :
    ∀ n, List.replicate n a ∈ productRepeat l n := by
  intro n
  induction n with
  | zero => simp [productRepeat]
  | succ n ih =>
    simp only [productRepeat, List.mem_flatMap, List.mem_map, List.replicate_succ]
    exact ⟨a, ha, List.replicate n a, ih, rfl⟩

theorem foldl_append_data :
    ∀ (l : List String) (s : String),
      (l.foldl (fun a b => a ++ b) s).data = s.data ++ (l.map String.data).flatten := by
  intro l
  induction l with
  | nil => intro s; simp
  | cons x xs ih =>
    intro s
    simp only [List.foldl_cons, List.map_cons, List.flatten, ih, String.data_append]
    simp [List.append_assoc]

theorem joinStr_data (l : List String) :
    (joinStr l).data = (l.map String.data).flatten := by
  simpa using foldl_append_data l ""

theorem mem_joinStr_data {l : List String} {c : Char} :
    c ∈ (joinStr l).data ↔ ∃ s ∈ l, c ∈ s.data := by
  rw [joinStr_data]
  simp [List.mem_flatten]

theorem mem_domainInputs_length {alphabet : List String} {n : Nat}
    (h1 : ∀ s ∈ alphabet, s.length = 1) {x : String}
    (hx : x ∈ domainInputs alphabet n) : x.length = n := by
  obtain ⟨pick, hp, rfl⟩ := List.mem_map.1 hx
  obtain ⟨hlen, hmem⟩ := productRepeat_mem hp
  show (joinStr pick).data.length = n
  rw [joinStr_data, List.length_flatten]
  have h2 : ∀ m ∈ (pick.map String.data).map List.length, m = 1 := by
    intro m hm
    simp only [List.map_map, List.mem_map] at hm
    obtain ⟨s, hs, rfl⟩ := hm
    exact h1 s (hmem s hs)
  have h3 : (pick.map String.data).map List.length = List.replicate n 1 :=
    List.eq_replicate_iff.2 ⟨by simp [hlen], h2⟩
  rw [h3]
  simp

theorem mem_data_domainInputs {alphabet : List String} {n : Nat} {x : String}
    (hx : x ∈ domainInputs alphabet n) {c : Char} (hc : c ∈ x.data) :
    ∃ s ∈ alphabet, c ∈ s.data := by
  obtain ⟨pick, hp, rfl⟩ := List.mem_map.1 hx
  obtain ⟨s, hs, hcs⟩ := mem_joinStr_data.1 hc
  exact ⟨s, (productRepeat_mem hp).2 s hs, hcs⟩

theorem alphabet_char_mem_domain {alphabet : List String} {n : Nat} (hn : 0 < n)
    {a : String} (ha : a ∈ alphabet) {c : Char} (hc : c ∈ a.data) :
    ∃ x ∈ domainInputs alphabet n, c ∈ x.data := by
  refine ⟨joinStr (List.replicate n a),
    List.mem_map.2 ⟨_, replicate_mem_productRepeat ha n, rfl⟩, ?_⟩
  rw [mem_joinStr_data]
  exact ⟨a, List.mem_replicate.2 ⟨by omega, rfl⟩, hc⟩

theorem alphabet_chars_nodup {alphabet : List String}
    (h1 : ∀ s ∈ alphabet, s.length = 1) (h2 : alphabet.Nodup) :
    (alphabet.flatMap String.data).Nodup ∧
    (alphabet.flatMap String.data).length = alphabet.length := by
  induction alphabet with
  | nil => simp
  | cons a as ih =>
    obtain ⟨hna, hnas⟩ := List.nodup_cons.1 h2
    obtain ⟨ihn, ihl⟩ := ih (fun s hs => h1 s (by simp [hs])) hnas
    obtain ⟨c, hc⟩ : ∃ c, a.data = [c] :=
      List.length_eq_one.1 (h1 a (by simp))
    constructor
    · rw [List.flatMap_cons, hc]
      simp only [List.singleton_append, List.nodup_cons]
      refine ⟨?_, ihn⟩
      intro hcm
      simp only [List.mem_flatMap] at hcm
      obtain ⟨s, hs, hcs⟩ := hcm
      obtain ⟨c', hc'⟩ : ∃ c', s.data = [c'] :=
        List.length_eq_one.1 (h1 s (by simp [hs]))
      rw [hc'] at hcs
      obtain rfl : c = c' := List.mem_singleton.1 hcs
      have hsa : s = a := by
        have h5 : s.data = a.data := by rw [hc, hc']
        exact String.ext h5
      exact hna (hsa ▸ hs)
    · rw [List.flatMap_cons, hc]
      simp only [List.singleton_append, List.length_cons, ihl]

theorem format_input_map_snd (t : Table) (rev : Bool) (eos : Option String) :
    (format_input t rev eos).entries.map Prod.snd = t.entries.map Prod.snd := by
  unfold format_input
  cases eos with
  | none => cases rev <;> simp [List.map_map, Function.comp]
  | some e =>
    by_cases he : e = "" <;> cases rev <;>
      simp [he, format_input.step3Append, List.map_map, Function.comp]

theorem formatted_cat_values (dfs : List Table) (rev : Bool) (eos : Option String) :
    (((dfs.map (fun df => format_input df rev eos)).flatMap Table.entries).map
        Prod.snd) =
      (dfs.map (fun t => t.entries.map Prod.snd)).flatten := by
  induction dfs with
  | nil => rfl
  | cons t ts ih =>
    simp only [List.map_cons, List.flatMap_cons, List.map_append,
      List.flatten_cons, ih, format_input_map_snd]

theorem mergeOne_ok_values {rng : RNG} {sh rev : Bool} {eos : Option String}
    {dfs : List Table} {u : List (String × String)} (hwf : rng.WF)
    (h : mergeOne rng sh rev eos dfs = .ok u) :
    dfs ≠ [] ∧
    (u.map Prod.snd).Perm ((dfs.map (fun t => t.entries.map Prod.snd)).flatten) := by
  unfold mergeOne at h
  split at h
  · exact absurd h (by simp)
  · rename_i hne
    have hdfs : dfs ≠ [] := by
      intro hd
      rw [hd] at hne
      simp at hne
    refine ⟨hdfs, ?_⟩
    have heq := Except.ok.inj h
    rw [← heq]
    have h2 : ((dfs.map (fun df => format_input df rev eos)).flatMap
        Table.entries).map Prod.snd =
        (dfs.map (fun t => t.entries.map Prod.snd)).flatten :=
      formatted_cat_values dfs rev eos
    cases sh with
    | false =>
      simp only [Bool.false_eq_true, if_false]
      rw [h2]
    | true =>
      simp only [if_true]
      rw [← h2]
      exact List.Perm.map _ (applyPerm_perm (hwf.2.2.2 _))

theorem create_N_ok_tables {N : Nat} {alphabet : List String} {n_repeats : Nat}
    {rng : RNG} {tables : List Table} (hwf : rng.WF)
    (h : create_N_table_lookup N alphabet n_repeats rng = .ok tables) :
    ∀ t ∈ tables,
      t.entries.map Prod.fst = domainInputs alphabet n_repeats ∧
      (t.entries.map Prod.snd).Perm (domainInputs alphabet n_repeats) := by
  simp only [create_N_table_lookup] at h
  split at h
  · rename_i hle
    have heq := Except.ok.inj h
    intro t ht
    rw [← heq] at ht
    obtain ⟨pr, hpr, rfl⟩ := List.mem_map.1 ht
    have hmem2 : pr.2 ∈ rng.selectSel (permsLex (domainInputs alphabet n_repeats)).length N := by
      have h3 := List.mem_map_of_mem Prod.snd hpr
      rwa [List.enum_map_snd] at h3
    have hlt := (hwf.2.1 _ N hle).2.2 pr.2 hmem2
    have houts : (permsLex (domainInputs alphabet n_repeats)).getD pr.2 [] ∈
        permsLex (domainInputs alphabet n_repeats) := by
      rw [List.getD_eq_getElem?_getD, List.getElem?_eq_getElem hlt]
      exact List.getElem_mem hlt
    have hperm := permsLex_mem_perm houts
    have hlen := hperm.length_eq
    constructor
    · exact List.map_fst_zip _ _ (by omega)
    · rw [List.map_snd_zip _ _ (by omega)]
      exact hperm
  · exact absurd h (by simp)

theorem assert_equal_ok {a b : Int} {x : Unit} (h : assert_equal a b = .ok x) :
    a = b := by
  unfold assert_equal at h
  split at h
  · assumption
  · exact absurd h (by simp)

theorem check_sizes_ok {u mt hi hc ht nc : List (String × String)}
    {maxL nU nHT nHC nHI : Nat} {x : Unit}
    (h : check_sizes u mt hi hc ht nc maxL nU nHT nHC nHI = .ok x) :
    ∃ e0, u.head? = some e0 ∧
      ((u.length : Int) = (nU : Int) *
          (((joinStr (u.map Prod.snd)).toList.dedup.length : Int) ^ e0.2.length) ∧
       (mt.length : Int) =
         (sum_pow ((nU : Int) - (nHT : Int)) maxL - (nHC : Int)) *
           (((joinStr (u.map Prod.snd)).toList.dedup.length : Int) ^ e0.2.length -
             (nHI : Int)) ∧
       (hi.length : Int) =
         (sum_pow ((nU : Int) - (nHT : Int)) maxL - (nHC : Int)) * (nHI : Int) ∧
       (hc.length : Int) = (nHC : Int) *
         (((joinStr (u.map Prod.snd)).toList.dedup.length : Int) ^ e0.2.length) ∧
       (ht.length : Int) =
         size_permute_compose (((nU : Int) - (nHT : Int)) + (nHT : Int))
             (((joinStr (u.map Prod.snd)).toList.dedup.length : Int) ^ e0.2.length) maxL -
           size_permute_compose ((nU : Int) - (nHT : Int))
             (((joinStr (u.map Prod.snd)).toList.dedup.length : Int) ^ e0.2.length) maxL -
           size_permute_compose (nHT : Int)
             (((joinStr (u.map Prod.snd)).toList.dedup.length : Int) ^ e0.2.length) maxL ∧
       (nc.length : Int) =
         size_permute_compose (nHT : Int)
           (((joinStr (u.map Prod.snd)).toList.dedup.length : Int) ^ e0.2.length) maxL) := by
  unfold check_sizes at h
  cases hu0 : u.head? with
  | none =>
    rw [hu0] at h
    simp at h
  | some e0 =>
    rw [hu0] at h
    refine ⟨e0, rfl, ?_⟩
    simp only [bind_ok_iff] at h
    obtain ⟨x1, h1, x2, h2, x3, h3, x4, h4, x5, h5, h6⟩ := h
    exact ⟨assert_equal_ok h1, assert_equal_ok h2, assert_equal_ok h3,
      assert_equal_ok h4, assert_equal_ok h5, assert_equal_ok h6⟩

/-- C2: every run of `table_lookup_dataset` that returns has passed
`_check_sizes`, so the six building-block splits match the closed-form
formulas with `domain_size = |alphabet| ^ n_repeats` (for an alphabet of
distinct single-character letters); a run whose sizes would mismatch errors
instead of returning. -/
theorem table_lookup_dataset_check_sizes (p : Params) (rng : RNG) (out : Output)
    (hwf : rng.WF)
    (ha1 : ∀ s ∈ p.alphabet, s.length = 1)
    (ha2 : p.alphabet.Nodup)
    (hreps : 0 < p.n_repeats)
    (hhc1 : 1 ≤ p.n_heldout_compositions)
    (hret : table_lookup_dataset p rng = .ok out) :
    ∃ bb, prepStage p rng = .ok bb ∧
      ((bb.unary.length : Int) =
          (p.n_unary_tables : Int) * ((p.alphabet.length : Int) ^ p.n_repeats) ∧
       (bb.multiary.length : Int) =
         (sum_pow ((p.n_unary_tables : Int) - (p.n_heldout_tables : Int))
             p.max_composition_train - (p.n_heldout_compositions : Int)) *
           ((p.alphabet.length : Int) ^ p.n_repeats - (p.n_heldout_inputs : Int)) ∧
       (bb.heldout_inputs.length : Int) =
         (sum_pow ((p.n_unary_tables : Int) - (p.n_heldout_tables : Int))
             p.max_composition_train - (p.n_heldout_compositions : Int)) *
           (p.n_heldout_inputs : Int) ∧
       (bb.heldout_compositions.length : Int) =
         (p.n_heldout_compositions : Int) *
           ((p.alphabet.length : Int) ^ p.n_repeats) ∧
       (bb.heldout_tables.length : Int) =
         size_permute_compose
             (((p.n_unary_tables : Int) - (p.n_heldout_tables : Int)) +
               (p.n_heldout_tables : Int))
             ((p.alphabet.length : Int) ^ p.n_repeats) p.max_composition_train -
           size_permute_compose
             ((p.n_unary_tables : Int) - (p.n_heldout_tables : Int))
             ((p.alphabet.length : Int) ^ p.n_repeats) p.max_composition_train -
           size_permute_compose (p.n_heldout_tables : Int)
             ((p.alphabet.length : Int) ^ p.n_repeats) p.max_composition_train ∧
       (bb.new_compositions.length : Int) =
         size_permute_compose (p.n_heldout_tables : Int)
           ((p.alphabet.length : Int) ^ p.n_repeats) p.max_composition_train) := by
  have _ := hhc1
  unfold table_lookup_dataset at hret
  simp only [bind_ok_iff] at hret
  obtain ⟨bb, hbb, _⟩ := hret
  refine ⟨bb, hbb, ?_⟩
  unfold prepStage at hbb
  simp only [bind_ok_iff] at hbb
  obtain ⟨unary, hcr, ml, hml, mf, hmf, held, hheld, ls, hls, li, hli, ln, hln,
    u, hu, mt, hmt, hi, hhi, hc, hhc, ht, hht, nc, hnc, xx, hck, hfin⟩ := hbb
  have hbbval := Except.ok.inj hfin
  obtain ⟨hne, hperm⟩ := mergeOne_ok_values hwf hu
  have htabs := create_N_ok_tables hwf hcr
  obtain ⟨e0, he0, heqs⟩ := check_sizes_ok hck
  have he0u : e0 ∈ u := by
    cases hu2 : u with
    | nil =>
      rw [hu2] at he0
      simp at he0
    | cons a as =>
      rw [hu2] at he0
      simp only [List.head?_cons, Option.some.injEq] at he0
      exact List.mem_cons.2 (Or.inl he0.symm)
  have he0mem : e0.2 ∈ u.map Prod.snd := List.mem_map_of_mem Prod.snd he0u
  have hval_mem : ∀ v ∈ u.map Prod.snd, v ∈ domainInputs p.alphabet p.n_repeats := by
    intro v hv
    have hv2 := hperm.mem_iff.1 hv
    simp only [List.mem_flatten, List.mem_map] at hv2
    obtain ⟨vals, ⟨t, htm, rfl⟩, hvv⟩ := hv2
    exact ((htabs t htm).2.mem_iff).1 hvv
  have hrep_d : e0.2.length = p.n_repeats :=
    mem_domainInputs_length ha1 (hval_mem _ he0mem)
  have hsetiff : ∀ c : Char, c ∈ (joinStr (u.map Prod.snd)).data ↔
      c ∈ p.alphabet.flatMap String.data := by
    intro c
    rw [mem_joinStr_data]
    constructor
    · rintro ⟨v, hv, hcv⟩
      obtain ⟨s, hs, hcs⟩ := mem_data_domainInputs (hval_mem v hv) hcv
      exact List.mem_flatMap.2 ⟨s, hs, hcs⟩
    · intro hcA
      obtain ⟨a, haA, hca⟩ := List.mem_flatMap.1 hcA
      obtain ⟨x, hxdom, hcx⟩ := alphabet_char_mem_domain hreps haA hca
      obtain ⟨t0, ht0⟩ := List.exists_mem_of_ne_nil unary hne
      have hx_t0 : x ∈ t0.entries.map Prod.snd := ((htabs t0 ht0).2.mem_iff).2 hxdom
      have hx_fl : x ∈ (unary.map (fun t => t.entries.map Prod.snd)).flatten :=
        List.mem_flatten.2 ⟨_, List.mem_map_of_mem _ ht0, hx_t0⟩
      exact ⟨x, hperm.mem_iff.2 hx_fl, hcx⟩
  have halpha_d : (joinStr (u.map Prod.snd)).toList.dedup.length =
      p.alphabet.length := by
    obtain ⟨hA_nodup, hA_len⟩ := alphabet_chars_nodup ha1 ha2
    have hsets : (joinStr (u.map Prod.snd)).toList.toFinset =
        (p.alphabet.flatMap String.data).toFinset := by
      ext c
      simp only [List.mem_toFinset]
      exact hsetiff c
    calc (joinStr (u.map Prod.snd)).toList.dedup.length
        = (joinStr (u.map Prod.snd)).toList.toFinset.card :=
          (List.card_toFinset _).symm
      _ = (p.alphabet.flatMap String.data).toFinset.card := by rw [hsets]
      _ = (p.alphabet.flatMap String.data).dedup.length := List.card_toFinset _
      _ = (p.alphabet.flatMap String.data).length := by rw [hA_nodup.dedup]
      _ = p.alphabet.length := hA_len
  rw [hrep_d, halpha_d] at heqs
  rw [← hbbval]
  exact heqs

/-- C2 witness: a concrete successful run at the witness parameters satisfies
the closed-form split sizes. -/
theorem table_lookup_dataset_check_sizes_witness :
    (mkRNG 0).WF ∧
    (∀ s ∈ pW.alphabet, s.length = 1) ∧ pW.alphabet.Nodup ∧
    0 < pW.n_repeats ∧ 1 ≤ pW.n_heldout_compositions ∧
    ∃ out, table_lookup_dataset pW (mkRNG 0) = .ok out ∧
      ∃ bb, prepStage pW (mkRNG 0) = .ok bb ∧
        ((bb.unary.length : Int) =
            (pW.n_unary_tables : Int) *
              ((pW.alphabet.length : Int) ^ pW.n_repeats) ∧
         (bb.multiary.length : Int) =
           (sum_pow ((pW.n_unary_tables : Int) - (pW.n_heldout_tables : Int))
               pW.max_composition_train - (pW.n_heldout_compositions : Int)) *
             ((pW.alphabet.length : Int) ^ pW.n_repeats -
               (pW.n_heldout_inputs : Int)) ∧
         (bb.heldout_inputs.length : Int) =
           (sum_pow ((pW.n_unary_tables : Int) - (pW.n_heldout_tables : Int))
               pW.max_composition_train - (pW.n_heldout_compositions : Int)) *
             (pW.n_heldout_inputs : Int) ∧
         (bb.heldout_compositions.length : Int) =
           (pW.n_heldout_compositions : Int) *
             ((pW.alphabet.length : Int) ^ pW.n_repeats) ∧
         (bb.heldout_tables.length : Int) =
           size_permute_compose
               (((pW.n_unary_tables : Int) - (pW.n_heldout_tables : Int)) +
                 (pW.n_heldout_tables : Int))
               ((pW.alphabet.length : Int) ^ pW.n_repeats)
               pW.max_composition_train -
             size_permute_compose
               ((pW.n_unary_tables : Int) - (pW.n_heldout_tables : Int))
               ((pW.alphabet.length : Int) ^ pW.n_repeats)
               pW.max_composition_train -
             size_permute_compose (pW.n_heldout_tables : Int)
               ((pW.alphabet.length : Int) ^ pW.n_repeats)
               pW.max_composition_train ∧
         (bb.new_compositions.length : Int) =
           size_permute_compose (pW.n_heldout_tables : Int)
             ((pW.alphabet.length : Int) ^ pW.n_repeats)
             pW.max_composition_train) := by
  refine ⟨mkRNG_wf 0, by decide, by decide, by decide, by decide, ?_⟩
  have hok : (table_lookup_dataset pW (mkRNG 0)).isOk = true := by rfl
  cases hret : table_lookup_dataset pW (mkRNG 0) with
  | error e =>
    rw [hret] at hok
    simp [Except.isOk, Except.toBool] at hok
  | ok out =>
    exact ⟨out, rfl,
      table_lookup_dataset_check_sizes pW (mkRNG 0) out (mkRNG_wf 0)
        (by decide) (by decide) (by decide) (by decide) hret⟩

end LookupTables
